import Mathlib

/-!
Verification of the readwise-to-remarkable core: a shallow embedding of the
rate-limited retrying network layer (`readwise_api.py`, `converter.py`), the
export ledger (`tracker.py`) and the per-document orchestration (`sync.py`),
together with theorems settling the specified properties.

Bytes are modelled as `Nat` values, Python strings as `List Char` (with
`String` wrappers at the interfaces), wall-clock times as `ℚ`, and the
network as an oracle function from attempt index to a transport outcome.
-/

namespace RW

/-- Byte-list prefix test, modelling Python `bytes.startswith`. -/
def bytesPre : List Nat → List Nat → Bool
  | [], _ => true
  | _ :: _, [] => false
  | p :: ps, d :: ds => p == d && bytesPre ps ds

/-- Byte-list substring test, modelling Python `pat in data` on bytes. -/
def bytesSub (pat : List Nat) : List Nat → Bool
  | [] => bytesPre pat []
  | d :: ds => bytesPre pat (d :: ds) || bytesSub pat ds

/-- PNG magic bytes, Python `b"\x89PNG"`. -/
def pngMagic : List Nat := [0x89, 0x50, 0x4E, 0x47]

/-- JPEG magic bytes, Python `b"\xff\xd8\xff"`. -/
def jpegMagic : List Nat := [0xff, 0xd8, 0xff]

/-- GIF magic bytes, Python `b"GIF"`. -/
def gifMagic : List Nat := [0x47, 0x49, 0x46]

/-- RIFF container magic, Python `b"RIFF"`. -/
def riffMagic : List Nat := [0x52, 0x49, 0x46, 0x46]

/-- WEBP tag bytes, Python `b"WEBP"`. -/
def webpTag : List Nat := [0x57, 0x45, 0x42, 0x50]

/-- Inline SVG marker bytes, Python `b"<svg"`. -/
def svgTag : List Nat := [0x3c, 0x73, 0x76, 0x67]

/-- Last dot-separated segment of a URL, modelling `url.split(".")[-1]`
for a url known to contain a dot: the run of characters after the final dot. -/
def lastDotSegment (url : List Char) : List Char :=
  ((url.reverse.takeWhile (fun c => c ≠ '.')).reverse)

/-- Modelling `segment.split("?")[0]`: characters before the first question mark. -/
def beforeQuery (seg : List Char) : List Char :=
  seg.takeWhile (fun c => c ≠ '?')

/-- URL extensions accepted by the fallback branch of
`DocumentConverter._determine_image_extension`. -/
def urlExtAllowList : List (List Char) :=
  [['p','n','g'], ['g','i','f'], ['w','e','b','p'], ['s','v','g'],
   ['j','p','e','g'], ['b','m','p']]

/-- Embedding of `DocumentConverter._determine_image_extension` from
`converter.py`: magic-byte sniffing first (PNG, JPEG, GIF, RIFF+WEBP,
inline SVG), then fallback to the URL's trailing extension when it is in
the allow list (with jpeg mapped to jpg), then default jpg. -/
def determine_image_extension (url : List Char) (content : List Nat) : List Char :=
  if bytesPre pngMagic content then ['p','n','g']
  else if bytesPre jpegMagic content then ['j','p','g']
  else if bytesPre gifMagic content then ['g','i','f']
  else if bytesPre riffMagic content && bytesSub webpTag (content.take 12) then
    ['w','e','b','p']
  else if bytesPre svgTag content || bytesSub svgTag (content.take 100) then
    ['s','v','g']
  else if url.contains '.' then
    let urlExt := (beforeQuery (lastDotSegment url)).map Char.toLower
    if urlExtAllowList.contains urlExt then
      if urlExt = ['j','p','e','g'] then ['j','p','g'] else urlExt
    else ['j','p','g']
  else ['j','p','g']

/-- Characters stripped out by `DocumentConverter.clean_filename`
(the regex character class in `converter.py`). -/
def forbiddenFilenameChars : List Char := ['<', '>', ':', '"', '/', '\\', '|', '?', '*']

/-- Whitespace characters recognised by the Python regex class `\s`
and by `str.strip` (ASCII range). -/
def isPySpace (c : Char) : Bool :=
  c = ' ' || c = '\t' || c = '\n' || c = '\r' || c = '\x0b' || c = '\x0c'

/-- Replace every whitespace character by a plain space (first half of
collapsing whitespace runs). -/
def wsToSpace (l : List Char) : List Char :=
  l.map (fun c => if isPySpace c then ' ' else c)

/-- Collapse adjacent spaces to a single space (second half of the
whitespace-run substitution in `clean_filename`). -/
def squeezeSpaces : List Char → List Char
  | [] => []
  | [c] => [c]
  | a :: b :: rest =>
    if a = ' ' && b = ' ' then squeezeSpaces (b :: rest)
    else a :: squeezeSpaces (b :: rest)

/-- Strip leading and trailing whitespace, modelling Python `str.strip()`. -/
def stripChars (l : List Char) : List Char :=
  ((l.dropWhile isPySpace).reverse.dropWhile isPySpace).reverse

/-- Embedding of `DocumentConverter.clean_filename` from `converter.py`:
remove forbidden filename characters, collapse whitespace runs to single
spaces, strip, and fall back to the sentinel when the result is empty. -/
def clean_filename (title : String) : String :=
  let cleaned := title.data.filter (fun c => ¬ forbiddenFilenameChars.contains c)
  let collapsed := stripChars (squeezeSpaces (wsToSpace cleaned))
  if collapsed = [] then "Untitled" else String.mk collapsed

/-- Transport outcome of one HTTP attempt, as distinguished by the two retry
loops: a 2xx body, a 429 with an optional integer Retry-After header, a 403,
another non-2xx status (which `raise_for_status` turns into a
`RequestException`), or a transport-level exception. -/
inductive Resp where
  | ok (content : List Nat)
  | rateLimited (retryAfter : Option Nat)
  | forbidden
  | httpError
  | netError
deriving DecidableEq

/-- Observable events of one run of a retry loop: an attempt being issued
(after the per-attempt rate limiting), a sleep triggered by a 429, or an
exponential-backoff sleep after a retryable failure. -/
inductive Ev where
  | attempt (i : Nat)
  | sleep429 (d : Nat)
  | sleepBackoff (d : Nat)
deriving DecidableEq

/-- Retry budget of `ReadwiseAPI._make_request` (`max_retries = 5`). -/
def apiMaxRetries : Nat := 5

/-- Backoff base of `ReadwiseAPI._make_request` (`base_delay = 2`). -/
def apiBaseDelay : Nat := 2

/-- Final outcome of `ReadwiseAPI._make_request`: a returned response, the
re-raised `RequestException` on the last attempt, or the `Max retries
exceeded` exception raised after the loop falls through. -/
inductive ApiFinal where
  | success (attempt : Nat) (content : List Nat)
  | raisedRequestError (attempt : Nat)
  | raisedMaxRetries
deriving DecidableEq

/-- Embedding of the `for attempt in range(max_retries)` loop of
`ReadwiseAPI._make_request` in `readwise_api.py`, run against a transport
oracle giving the outcome of each attempt. A 429 sleeps the Retry-After
value when present, else `base_delay * 2 ** attempt`, then continues with
the next attempt index; any `RequestException` on the last attempt
re-raises, and otherwise sleeps the backoff and continues. -/
def make_request_loop (t : Nat → Resp) : Nat → Nat → List Ev × ApiFinal
  | _, 0 => ([], .raisedMaxRetries)
  | attempt, fuel+1 =>
    match t attempt with
    | .ok c => ([.attempt attempt], .success attempt c)
    | .rateLimited ra =>
      let d := ra.getD (apiBaseDelay * 2 ^ attempt)
      let rest := make_request_loop t (attempt+1) fuel
      (.attempt attempt :: .sleep429 d :: rest.1, rest.2)
    | _ =>
      if attempt = apiMaxRetries - 1 then
        ([.attempt attempt], .raisedRequestError attempt)
      else
        let d := apiBaseDelay * 2 ^ attempt
        let rest := make_request_loop t (attempt+1) fuel
        (.attempt attempt :: .sleepBackoff d :: rest.1, rest.2)

/-- One full run of `ReadwiseAPI._make_request` against a transport oracle. -/
def make_request (t : Nat → Resp) : List Ev × ApiFinal :=
  make_request_loop t 0 apiMaxRetries

/-- Retry budget of `RateLimitedImageFetcher.fetch_image` (`max_retries = 3`). -/
def imageMaxRetries : Nat := 3

/-- Backoff base of `RateLimitedImageFetcher.fetch_image` (`base_delay = 2`). -/
def imageBaseDelay : Nat := 2

/-- Final outcome of `RateLimitedImageFetcher.fetch_image`: returned bytes, an
early `None` on a 403, a `None` when the last attempt fails with a
`RequestException`, or the `None` returned after the loop falls through. -/
inductive ImageFinal where
  | content (attempt : Nat) (c : List Nat)
  | forbiddenNone (attempt : Nat)
  | exhaustedNone (attempt : Nat)
  | fellThroughNone
deriving DecidableEq

/-- Embedding of the retry loop of `RateLimitedImageFetcher.fetch_image` in
`converter.py`: like the API loop, but a 403 returns `None` immediately and
an exhausted retry budget returns `None` instead of raising. -/
def fetch_image_loop (t : Nat → Resp) : Nat → Nat → List Ev × ImageFinal
  | _, 0 => ([], .fellThroughNone)
  | attempt, fuel+1 =>
    match t attempt with
    | .ok c => ([.attempt attempt], .content attempt c)
    | .rateLimited ra =>
      let d := ra.getD (imageBaseDelay * 2 ^ attempt)
      let rest := fetch_image_loop t (attempt+1) fuel
      (.attempt attempt :: .sleep429 d :: rest.1, rest.2)
    | .forbidden => ([.attempt attempt], .forbiddenNone attempt)
    | _ =>
      if attempt = imageMaxRetries - 1 then
        ([.attempt attempt], .exhaustedNone attempt)
      else
        let d := imageBaseDelay * 2 ^ attempt
        let rest := fetch_image_loop t (attempt+1) fuel
        (.attempt attempt :: .sleepBackoff d :: rest.1, rest.2)

/-- One full run of `RateLimitedImageFetcher.fetch_image` against a transport
oracle. -/
def fetch_image (t : Nat → Resp) : List Ev × ImageFinal :=
  fetch_image_loop t 0 imageMaxRetries

/-- The `bytes | None` value `fetch_image` hands to its caller. -/
def fetch_image_result (t : Nat → Resp) : Option (List Nat) :=
  match (fetch_image t).2 with
  | .content _ c => some c
  | _ => none

/-- Number of attempts issued during a run. -/
def countAttempts (evs : List Ev) : Nat :=
  evs.countP (fun e => match e with | .attempt _ => true | _ => false)

/-- Minimum inter-request interval of `ReadwiseAPI` (3.1 seconds). -/
def apiMinInterval : ℚ := 31 / 10

/-- Minimum inter-request interval of `RateLimitedImageFetcher` (1.0 second). -/
def imageMinInterval : ℚ := 1

/-- Sleep duration computed by `_rate_limit` (both classes share the code):
`min_interval - (now - last_request_time)` when that gap is still below the
minimum, zero otherwise. -/
def rate_limit_sleep (minInterval last t1 : ℚ) : ℚ :=
  if t1 - last < minInterval then minInterval - (t1 - last) else 0

/-- One execution of `_rate_limit` relating the previous and the new
`last_request_time`: `t1` is the first `time.time()` sample (at least the
previously recorded time, the clock being monotone), the flow then sleeps
`rate_limit_sleep`, and the new `last_request_time` is a `time.time()` sample
`t2` taken no earlier than the end of the sleep. -/
def RateLimitStep (minInterval last last' : ℚ) : Prop :=
  ∃ t1 t2, last ≤ t1 ∧ t1 + rate_limit_sleep minInterval last t1 ≤ t2 ∧ last' = t2

/-- The universal-newline translation Python applies when reading a file in
text mode (`newline=None`, as `Path.open` does in `load_exported_docs`): a
`'\r\n'` pair and a lone `'\r'` are both replaced by a single `'\n'`. -/
def normNl : List Char → List Char
  | [] => []
  | [c] => if c = '\r' then ['\n'] else [c]
  | a :: b :: rest =>
    if a = '\r' then
      if b = '\n' then '\n' :: normNl rest else '\n' :: normNl (b :: rest)
    else a :: normNl (b :: rest)

/-- Splitting translated file contents into lines at `'\n'` characters. -/
def splitLf : List Char → List (List Char)
  | [] => [[]]
  | c :: rest =>
    if c = '\n' then [] :: splitLf rest
    else
      match splitLf rest with
      | [] => [[c]]
      | l :: ls => (c :: l) :: ls

/-- Splitting a file's characters into lines, modelling text-mode line
iteration in `load_exported_docs`: universal-newline translation first
(`'\n'`, lone `'\r'` and `'\r\n'` all terminate a line), then splitting at
`'\n'`. -/
def splitNl (l : List Char) : List (List Char) :=
  splitLf (normNl l)

/-- Leftmost match of the Python regex `\(([^)]+)\)$` via `re.search`: scan
left to right for a `(` followed by a nonempty run of non-`)` characters,
then a `)` that ends the line; return the captured run. -/
def searchParen : List Char → Option (List Char)
  | [] => none
  | c :: rest =>
    if c = '(' then
      if rest.takeWhile (fun x => x ≠ ')') ≠ [] ∧
          rest.drop (rest.takeWhile (fun x => x ≠ ')')).length = [')'] then
        some (rest.takeWhile (fun x => x ≠ ')'))
      else searchParen rest
    else searchParen rest

/-- Per-line parse of `ExportTracker.load_exported_docs`: strip the line,
skip empty lines and comment lines, and extract the trailing parenthesized
identifier when present. -/
def parseLine (line : List Char) : Option (List Char) :=
  match stripChars line with
  | [] => none
  | c :: cs => if c = '#' then none else searchParen (c :: cs)

/-- Embedding of `ExportTracker.load_exported_docs` from `tracker.py`: the
identifiers extracted from the accepted lines of the ledger file. -/
def load_exported_docs (file : List Char) : List (List Char) :=
  (splitNl file).filterMap parseLine

/-- State of an `ExportTracker`: the ledger file contents and the in-memory
collection of exported identifiers. -/
structure ExportTracker where
  file : List Char
  exported_docs : List (List Char)
deriving DecidableEq

/-- Constructing an `ExportTracker` over an existing ledger file (the
`__init__` + `load_exported_docs` path). -/
def freshTracker (file : List Char) : ExportTracker :=
  ⟨file, load_exported_docs file⟩

/-- Embedding of `ExportTracker.is_exported`. -/
def is_exported (tr : ExportTracker) (doc_id : List Char) : Bool :=
  tr.exported_docs.contains doc_id

/-- The ledger line written by `mark_exported`, including its final
newline: `timestamp - title (doc_id)`. -/
def entryLine (ts title doc_id : List Char) : List Char :=
  ts ++ [' ', '-', ' '] ++ title ++ [' ', '('] ++ doc_id ++ [')', '\n']

/-- Embedding of `ExportTracker.mark_exported` from `tracker.py`: append the
entry line to the file, then add the identifier to the in-memory
collection (`ts` stands for the `datetime.now` timestamp string). -/
def mark_exported (tr : ExportTracker) (ts doc_id title : List Char) : ExportTracker :=
  ⟨tr.file ++ entryLine ts title doc_id, tr.exported_docs ++ [doc_id]⟩

/-- The two shapes the remote `tags` field can take (a mapping, keyed by tag
names, or a sequence of tag names), plus any other shape. -/
inductive Tags where
  | dict (keys : List String)
  | seq (l : List String)
  | other
deriving DecidableEq

/-- Tag normalization in `get_documents`: keys of a mapping, a sequence
as-is, anything else the empty list. -/
def tag_list : Tags → List String
  | .dict ks => ks
  | .seq l => l
  | .other => []

/-- The document fields the embedded code reads (missing optional fields are
`none`, a missing `tags` field arrives as the empty mapping). -/
structure Doc where
  id : String
  title : String
  author : Option String
  category : Option String
  source_url : Option String
  html_content : Option String
  tags : Tags
deriving DecidableEq

/-- One page of the listing endpoint: a `results` array and an optional
`nextPageCursor`. -/
structure Page where
  results : List Doc
  nextPageCursor : Option String

/-- Python truthiness of the pagination cursor: `None` and the empty string
both end the loop. -/
def truthyCursor : Option String → Option String
  | none => none
  | some s => if s = "" then none else some s

/-- The tag filter of `get_documents`: `tag in tag_list`. -/
def docMatchesTag (tag : String) (d : Doc) : Bool :=
  (tag_list d.tags).contains tag

/-- The per-location `while True` pagination loop of
`ReadwiseAPI.get_documents`, against a transport oracle mapping a cursor to
a page; `fuel` bounds the page-following (the Python loop only terminates
when a falsy cursor arrives). -/
def get_documents_loc (fetch : Option String → Page) (tag : String) :
    Nat → Option String → List Doc
  | 0, _ => []
  | fuel+1, cursor =>
    let page := fetch cursor
    let kept := page.results.filter (docMatchesTag tag)
    match truthyCursor page.nextPageCursor with
    | none => kept
    | some c => kept ++ get_documents_loc fetch tag fuel (some c)

/-- Embedding of `ReadwiseAPI.get_documents` from `readwise_api.py`:
concatenation, in location order, of the per-location paginated, tag-filtered
results. -/
def get_documents (transport : String → Option String → Page)
    (locations : List String) (tag : String) (fuel : Nat) : List Doc :=
  locations.flatMap (fun loc => get_documents_loc (transport loc) tag fuel none)

/-- Outcomes of the external effects `_process_document` performs: whether
the PDF download, the EPUB conversion and the upload succeed. -/
structure Env where
  downloadOk : Bool
  convertOk : Bool
  uploadOk : Bool
deriving DecidableEq

/-- The exit point `_process_document` reaches for one document. -/
inductive ProcOutcome where
  | pdfNoSource
  | pdfDownloadFailed
  | pdfSynced
  | pdfUploadFailed
  | noContent
  | convertFailed
  | synced
  | uploadFailed
deriving DecidableEq

/-- Result of processing one document: the exit point, whether
`mark_exported` was called, and whether an upload was attempted. -/
structure ProcResult where
  outcome : ProcOutcome
  marked : Bool
  uploadAttempted : Bool
deriving DecidableEq

/-- Embedding of `ReadwiseRemarkableSync._process_document` from `sync.py`:
the control flow deciding when `mark_exported` is called, with the external
effects abstracted by `Env`. `category` defaults to `article`, a missing or
empty `source_url` aborts the PDF path, a missing or empty `html_content`
aborts the article path, and only a successful upload marks the document. -/
def process_document (doc : Doc) (env : Env) : ProcResult :=
  if doc.category.getD "article" = "pdf" then
    if doc.source_url.getD "" = "" then ⟨.pdfNoSource, false, false⟩
    else if env.downloadOk = false then ⟨.pdfDownloadFailed, false, false⟩
    else if env.uploadOk then ⟨.pdfSynced, true, true⟩
    else ⟨.pdfUploadFailed, false, true⟩
  else
    if doc.html_content.getD "" = "" then ⟨.noContent, false, false⟩
    else if env.convertOk = false then ⟨.convertFailed, false, false⟩
    else if env.uploadOk then ⟨.synced, true, true⟩
    else ⟨.uploadFailed, false, true⟩

/-- Character-list prefix test, modelling Python `str.startswith`. -/
def charsPre : List Char → List Char → Bool
  | [], _ => true
  | _ :: _, [] => false
  | p :: ps, d :: ds => p == d && charsPre ps ds

/-- Whether an `img` element's `src` is an absolute http or https URL
(the `src.startswith(("http://", "https://"))` check in `html_to_epub`). -/
def isHttpUrl (s : String) : Bool :=
  charsPre ("http://").data s.data || charsPre ("https://").data s.data

/-- Embedding of the image-embedding loop of `DocumentConverter.html_to_epub`
from `converter.py`, over the list of `src` attributes of the document's
`img` elements: an http(s) `src` whose fetch yields nonempty bytes is
replaced by `img_<counter>.<ext>` and the bytes are collected; a fetch
returning `None` or empty bytes, a non-http `src` and a missing `src` all
leave the element unchanged. -/
def process_images (fetch : String → Option (List Nat)) :
    Nat → List (Option String) → List (Option String) × List (String × List Nat)
  | _, [] => ([], [])
  | counter, src :: rest =>
    match src with
    | some s =>
      if isHttpUrl s then
        match fetch s with
        | some content =>
          if content ≠ [] then
            let ext := determine_image_extension s.data content
            let name := "img_" ++ toString counter ++ "." ++ String.mk ext
            let restOut := process_images fetch (counter+1) rest
            (some name :: restOut.1, (name, content) :: restOut.2)
          else
            let restOut := process_images fetch counter rest
            (src :: restOut.1, restOut.2)
        | none =>
          let restOut := process_images fetch counter rest
          (src :: restOut.1, restOut.2)
      else
        let restOut := process_images fetch counter rest
        (src :: restOut.1, restOut.2)
    | none =>
      let restOut := process_images fetch counter rest
      (src :: restOut.1, restOut.2)

/-- Adjacent-character relation: not both plain spaces. -/
def pairNotSpaces (a b : Char) : Prop := ¬ (a = ' ' ∧ b = ' ')

/-- Check that a character list never has two adjacent plain spaces. -/
def noAdjSpaces : List Char → Bool
  | [] => true
  | [_] => true
  | a :: b :: rest => !(a = ' ' && b = ' ') && noAdjSpaces (b :: rest)

/-- Check that the first character, if any, is not whitespace. -/
def headNotSpace (l : List Char) : Bool :=
  match l.head? with
  | some c => !(isPySpace c)
  | none => true

/-- Check that the last character, if any, is not whitespace. -/
def lastNotSpace (l : List Char) : Bool :=
  match l.getLast? with
  | some c => !(isPySpace c)
  | none => true

/-- Fixture documents and transport for the pagination scenario of
`get_documents`: location `new` serves one page with cursor `abc` and a
second page without cursor; location `later` serves a single page
repeating the first document. -/
def scenDoc1 : Doc := ⟨"d1", "t1", none, none, none, none, Tags.seq ["remarkable"]⟩

def scenDoc2 : Doc := ⟨"d2", "t2", none, none, none, none, Tags.dict ["remarkable", "x"]⟩

def scenDocOther : Doc := ⟨"dX", "tX", none, none, none, none, Tags.other⟩

def scenDoc3 : Doc := ⟨"d3", "t3", none, none, none, none, Tags.dict ["remarkable"]⟩

def scenTransport : String → Option String → Page := fun loc cursor =>
  if loc = "new" then
    match cursor with
    | none => ⟨[scenDoc1, scenDoc2, scenDocOther], some "abc"⟩
    | some c => if c = "abc" then ⟨[scenDoc3], none⟩ else ⟨[], none⟩
  else if loc = "later" then ⟨[scenDoc1], none⟩
  else ⟨[], none⟩

/-! ## Theorems -/

/-- The final dot-separated segment of a URL ending in `.svg` is `svg`. -/
theorem lastDotSegment_svg (u : List Char) :
    lastDotSegment (u ++ ['.', 's', 'v', 'g']) = ['s', 'v', 'g'] := by
  simp [lastDotSegment, List.takeWhile]

/-- A URL ending in `.svg` contains a dot. -/
theorem contains_dot_svg (u : List Char) :
    (u ++ ['.', 's', 'v', 'g']).contains '.' = true := by
  simp [List.contains]

/-- C6 counterexample: a URL ending in `.svg` whose bytes carry no sniffable
signature and no inline svg marker is classified `svg` via the URL-extension
allow list, not `jpg` as the claim states. -/
theorem c6_counterexample :
    determine_image_extension ("http://e.com/i.svg").data [0x68, 0x65, 0x6c, 0x6c, 0x6f]
      = ['s', 'v', 'g'] ∧
    ¬ determine_image_extension ("http://e.com/i.svg").data [0x68, 0x65, 0x6c, 0x6c, 0x6f]
      = ['j', 'p', 'g'] := by
  constructor
  · decide
  · decide

/-- C6 as amended: magic-byte sniffing precedes the URL suffix — bytes
beginning with the PNG signature classify as `png` for every URL, a URL
ending in `.png` serving JPEG bytes classifies as `jpg`, and a URL ending in
`.svg` whose bytes have no sniffable signature and no inline svg marker in
the first 100 bytes falls back to `svg` (the URL extension, which is in the
allow list), not to `jpg`. -/
theorem c6_amended :
    (∀ url content, bytesPre pngMagic content = true →
      determine_image_extension url content = ['p', 'n', 'g']) ∧
    determine_image_extension ("http://e.com/pic.png").data [0xff, 0xd8, 0xff, 0xe0]
      = ['j', 'p', 'g'] ∧
    (∀ u content,
      bytesPre pngMagic content = false →
      bytesPre jpegMagic content = false →
      bytesPre gifMagic content = false →
      (bytesPre riffMagic content && bytesSub webpTag (content.take 12)) = false →
      (bytesPre svgTag content || bytesSub svgTag (content.take 100)) = false →
      determine_image_extension (u ++ ['.', 's', 'v', 'g']) content = ['s', 'v', 'g']) := by
  refine ⟨?_, by decide, ?_⟩
  · intro url content h
    unfold determine_image_extension
    rw [h]
    simp
  · intro u content h1 h2 h3 h4 h5
    unfold determine_image_extension
    rw [h1, h2, h3, h4, h5]
    simp [contains_dot_svg, lastDotSegment_svg, beforeQuery, urlExtAllowList, List.takeWhile]

/-- C6 witness: the amended classification at concrete inputs. -/
theorem c6_witness :
    determine_image_extension ("http://x/y.gif").data (pngMagic ++ [0]) = ['p', 'n', 'g'] ∧
    determine_image_extension ("http://e.com/i".data ++ ['.', 's', 'v', 'g']) [104]
      = ['s', 'v', 'g'] :=
  ⟨c6_amended.1 _ _ (by decide),
   c6_amended.2.2 _ _ (by decide) (by decide) (by decide) (by decide) (by decide)⟩

theorem squeeze_head (b : Char) (rest : List Char) :
    (squeezeSpaces (b :: rest)).head? = some b := by
  induction rest generalizing b with
  | nil => rfl
  | cons c r ih =>
    by_cases hb : b = ' ' <;> by_cases hc : c = ' ' <;>
      simp [squeezeSpaces, hb, hc, ih]

theorem squeeze_chain' (l : List Char) : List.Chain' pairNotSpaces (squeezeSpaces l) := by
  induction l with
  | nil => simp [squeezeSpaces]
  | cons a t ih =>
    cases t with
    | nil => simp [squeezeSpaces]
    | cons b r =>
      by_cases hab : a = ' ' ∧ b = ' '
      · simpa [squeezeSpaces, hab.1, hab.2] using ih
      · have hcond : (decide (a = ' ') && decide (b = ' ')) = false := by
          by_cases ha : a = ' ' <;> by_cases hb : b = ' ' <;>
            simp [ha, hb] <;> exact hab ⟨ha, hb⟩
        rw [squeezeSpaces, hcond]
        simp only [Bool.false_eq_true, if_false]
        refine List.chain'_cons'.mpr ⟨?_, ih⟩
        intro y hy
        rw [squeeze_head] at hy
        cases hy
        exact fun hc => hab hc

theorem chain'_dropWhile_pair (p : Char → Bool) {l : List Char}
    (h : List.Chain' pairNotSpaces l) :
    List.Chain' pairNotSpaces (l.dropWhile p) := by
  rw [← List.takeWhile_append_dropWhile p l] at h
  exact (List.chain'_append.mp h).2.1

theorem chain'_reverse_pair {l : List Char} (h : List.Chain' pairNotSpaces l) :
    List.Chain' pairNotSpaces l.reverse := by
  rw [List.chain'_reverse]
  exact h.imp (fun a b hab hc => hab ⟨hc.2, hc.1⟩)

theorem chain'_strip {l : List Char} (h : List.Chain' pairNotSpaces l) :
    List.Chain' pairNotSpaces (stripChars l) :=
  chain'_reverse_pair (chain'_dropWhile_pair _ (chain'_reverse_pair (chain'_dropWhile_pair _ h)))

theorem noAdj_of_chain' (l : List Char) :
    List.Chain' pairNotSpaces l → noAdjSpaces l = true := by
  induction l with
  | nil => intro _; rfl
  | cons a t ih =>
    intro h
    cases t with
    | nil => rfl
    | cons b r =>
      rw [List.chain'_cons] at h
      have h1 : (decide (a = ' ') && decide (b = ' ')) = false := by
        by_cases ha : a = ' ' <;> by_cases hb : b = ' ' <;>
          simp [ha, hb] <;> exact h.1 ⟨ha, hb⟩
      simp [noAdjSpaces, h1, ih h.2]

theorem dropWhile_head_false (p : Char → Bool) (l : List Char) :
    ∀ c, (l.dropWhile p).head? = some c → p c = false := by
  induction l with
  | nil => intro c h; simp at h
  | cons a t ih =>
    intro c h
    by_cases ha : p a
    · rw [List.dropWhile_cons_of_pos ha] at h
      exact ih c h
    · rw [List.dropWhile_cons_of_neg ha] at h
      simp at h
      subst h
      simpa using ha

theorem strip_headNotSpace (l : List Char) : headNotSpace (stripChars l) = true := by
  unfold stripChars headNotSpace
  rw [List.head?_reverse]
  set m := (l.dropWhile isPySpace).reverse.dropWhile isPySpace with hm
  cases hmm : m with
  | nil => simp
  | cons c cs =>
    have hne : m ≠ [] := by rw [hmm]; simp
    have h1 : m.getLast? = ((l.dropWhile isPySpace).reverse).getLast? := by
      conv_rhs => rw [← List.takeWhile_append_dropWhile isPySpace (l.dropWhile isPySpace).reverse]
      rw [List.getLast?_append_of_ne_nil _ (by rw [← hm]; exact hne)]
    rw [← hmm, h1, List.getLast?_reverse]
    cases hh : (l.dropWhile isPySpace).head? with
    | none => simp
    | some d =>
      have := dropWhile_head_false isPySpace l d hh
      simp [this]

theorem strip_lastNotSpace (l : List Char) : lastNotSpace (stripChars l) = true := by
  unfold stripChars lastNotSpace
  rw [List.getLast?_reverse]
  cases hh : ((l.dropWhile isPySpace).reverse.dropWhile isPySpace).head? with
  | none => simp
  | some d =>
    have := dropWhile_head_false isPySpace (l.dropWhile isPySpace).reverse d hh
    simp [this]

theorem squeeze_subset (l : List Char) : ∀ x ∈ squeezeSpaces l, x ∈ l := by
  induction l with
  | nil => intro x hx; simpa [squeezeSpaces] using hx
  | cons a t ih =>
    intro x hx
    cases t with
    | nil =>
      simp only [squeezeSpaces] at hx
      exact hx
    | cons b r =>
      simp only [squeezeSpaces] at hx
      by_cases hcond : (decide (a = ' ') && decide (b = ' ')) = true
      · rw [if_pos hcond] at hx
        exact List.mem_cons_of_mem a (ih x hx)
      · rw [if_neg hcond] at hx
        rcases List.mem_cons.mp hx with h1 | h1
        · exact h1 ▸ List.mem_cons_self a _
        · exact List.mem_cons_of_mem a (ih x h1)

theorem strip_subset (l : List Char) : ∀ x ∈ stripChars l, x ∈ l := by
  intro x hx
  unfold stripChars at hx
  rw [List.mem_reverse] at hx
  have h1 := (List.dropWhile_suffix isPySpace).sublist.subset hx
  rw [List.mem_reverse] at h1
  exact (List.dropWhile_suffix isPySpace).sublist.subset h1

theorem all_of_subset {q : Char → Bool} {l m : List Char}
    (hsub : ∀ x ∈ m, x ∈ l) (h : l.all q = true) : m.all q = true := by
  rw [List.all_eq_true] at *
  exact fun x hx => h x (hsub x hx)

theorem wsToSpace_all (q : Char → Bool) (hq : q ' ' = true) (l : List Char)
    (h : l.all q = true) : (wsToSpace l).all q = true := by
  rw [wsToSpace, List.all_map, List.all_eq_true]
  rw [List.all_eq_true] at h
  intro x hx
  by_cases hs : isPySpace x = true
  · simpa [Function.comp, hs] using hq
  · simpa [Function.comp, hs] using h x hx

theorem wsToSpace_all_space (l : List Char) :
    (wsToSpace l).all (fun c => !(isPySpace c) || (c == ' ')) = true := by
  rw [wsToSpace, List.all_map, List.all_eq_true]
  intro x hx
  by_cases hs : isPySpace x = true <;> simp [Function.comp, hs]

/-- C10: for every input string, `clean_filename` returns a non-empty string
in which the forbidden filename characters are absent, whitespace runs are
collapsed (no non-space whitespace remains and no two spaces are adjacent),
leading and trailing whitespace is stripped, and the empty result is replaced
by the sentinel `Untitled`. -/
theorem c10 (title : String) :
    clean_filename title ≠ "" ∧
    ((clean_filename title).data.all (fun c => !(forbiddenFilenameChars.contains c)) = true) ∧
    ((clean_filename title).data.all (fun c => !(isPySpace c) || (c == ' ')) = true) ∧
    noAdjSpaces (clean_filename title).data = true ∧
    headNotSpace (clean_filename title).data = true ∧
    lastNotSpace (clean_filename title).data = true := by
  unfold clean_filename
  set base := title.data.filter (fun c => ¬ forbiddenFilenameChars.contains c) with hbase
  set collapsed := stripChars (squeezeSpaces (wsToSpace base)) with hcoll
  have hb1 : base.all (fun c => !(forbiddenFilenameChars.contains c)) = true := by
    rw [List.all_eq_true]
    intro x hx
    have := (List.mem_filter.mp hx).2
    simpa using this
  by_cases h : collapsed = []
  · rw [if_pos h]
    refine ⟨by decide, by decide, by decide, by decide, by decide, by decide⟩
  · rw [if_neg h]
    have hdata : (String.mk collapsed).data = collapsed := rfl
    have hsub : ∀ x ∈ collapsed, x ∈ wsToSpace base := by
      intro x hx
      exact squeeze_subset _ x (strip_subset _ x hx)
    refine ⟨?_, ?_, ?_, ?_, ?_, ?_⟩
    · simp [String.ext_iff, h]
    · rw [hdata]
      exact all_of_subset hsub (wsToSpace_all _ (by decide) _ hb1)
    · rw [hdata]
      exact all_of_subset hsub (wsToSpace_all_space base)
    · rw [hdata, hcoll]
      exact noAdj_of_chain' _ (chain'_strip (squeeze_chain' _))
    · rw [hdata, hcoll]
      exact strip_headNotSpace _
    · rw [hdata, hcoll]
      exact strip_lastNotSpace _

theorem searchParen_none : ∀ {l : List Char}, l.getLast? ≠ some ')' → searchParen l = none := by
  intro l
  induction l with
  | nil => intro _; rfl
  | cons c rest ih =>
    intro h
    have htail : rest.getLast? ≠ some ')' := by
      cases rest with
      | nil => simp
      | cons d ds =>
        rw [List.getLast?_cons_cons] at h
        exact h
    rw [searchParen]
    by_cases hc : c = '('
    · rw [if_pos hc]
      by_cases hcond : rest.takeWhile (fun x => x ≠ ')') ≠ [] ∧
          rest.drop (rest.takeWhile (fun x => x ≠ ')')).length = [')']
      · exfalso
        apply h
        have hrest : rest = rest.takeWhile (fun x => x ≠ ')') ++ [')'] := by
          conv_lhs => rw [← List.take_append_drop
            (rest.takeWhile (fun x => x ≠ ')')).length rest]
          rw [← List.prefix_iff_eq_take.mp (List.takeWhile_prefix _), hcond.2]
        rw [hrest, ← List.cons_append, List.getLast?_concat]
      · rw [if_neg hcond]
        exact ih htail
    · rw [if_neg hc]
      exact ih htail

theorem takeWhile_no_rparen : ∀ {x : List Char}, ')' ∉ x →
    (x ++ [')']).takeWhile (fun c => c ≠ ')') = x := by
  intro x
  induction x with
  | nil => intro _; simp [List.takeWhile]
  | cons a t ih =>
    intro hxp
    have ha : a ≠ ')' := fun h => hxp (h ▸ List.mem_cons_self a t)
    have ht : ')' ∉ t := fun h => hxp (List.mem_cons_of_mem a h)
    have ih2 : List.takeWhile (fun c => !decide (c = ')')) (t ++ [')']) = t := by
      simpa using ih ht
    simp [List.takeWhile_cons, ha, ih2]

theorem searchParen_found : ∀ (pre : List Char) {x : List Char},
    '(' ∉ pre → x ≠ [] → ')' ∉ x →
    searchParen (pre ++ '(' :: (x ++ [')'])) = some x := by
  intro pre
  induction pre with
  | nil =>
    intro x _ hx hxp
    rw [List.nil_append, searchParen, if_pos rfl, takeWhile_no_rparen hxp,
      if_pos ⟨hx, List.drop_left x [')']⟩]
  | cons c pre ih =>
    intro x hpre hx hxp
    have hc : c ≠ '(' := fun h => hpre (h ▸ List.mem_cons_self c pre)
    have hp : '(' ∉ pre := fun h => hpre (List.mem_cons_of_mem c h)
    rw [List.cons_append, searchParen, if_neg hc]
    exact ih hp hx hxp

theorem dropWhile_id_of_head {p : Char → Bool} : ∀ {l : List Char},
    (∀ c, l.head? = some c → p c = false) → l.dropWhile p = l := by
  intro l h
  cases l with
  | nil => rfl
  | cons a t =>
    have := h a rfl
    rw [List.dropWhile_cons_of_neg (by simp [this])]

theorem stripChars_id {l : List Char}
    (hh : ∀ c, l.head? = some c → isPySpace c = false)
    (hl : ∀ c, l.getLast? = some c → isPySpace c = false) : stripChars l = l := by
  unfold stripChars
  rw [dropWhile_id_of_head hh]
  rw [dropWhile_id_of_head (fun c hc => hl c (by rwa [List.head?_reverse] at hc))]
  exact List.reverse_reverse l

theorem splitLf_ne_nil : ∀ (l : List Char), splitLf l ≠ [] := by
  intro l
  cases l with
  | nil => simp [splitLf]
  | cons c rest =>
    rw [splitLf]
    by_cases hc : c = '\n'
    · simp [hc]
    · rw [if_neg hc]
      cases h : splitLf rest with
      | nil => simp
      | cons a as => simp

theorem splitLf_two_of_last_nl : ∀ {l : List Char}, l.getLast? = some '\n' →
    2 ≤ (splitLf l).length := by
  intro l
  induction l with
  | nil => intro h; simp at h
  | cons c rest ih =>
    intro h
    cases rest with
    | nil =>
      simp at h
      simp [splitLf, h]
    | cons d ds =>
      rw [List.getLast?_cons_cons] at h
      have h2 := ih h
      rw [splitLf]
      by_cases hc : c = '\n'
      · rw [if_pos hc]
        simp
        omega
      · rw [if_neg hc]
        cases hs : splitLf (d :: ds) with
        | nil => exact absurd hs (splitLf_ne_nil _)
        | cons a as =>
          rw [hs] at h2
          simpa using h2

theorem splitLf_append : ∀ (old : List Char), (old = [] ∨ old.getLast? = some '\n') →
    ∀ e, splitLf (old ++ e) = (splitLf old).dropLast ++ splitLf e := by
  intro old
  induction old with
  | nil => intro _ e; simp [splitLf]
  | cons c rest ih =>
    intro h e
    rcases h with h | h
    · exact absurd h (by simp)
    cases rest with
    | nil =>
      simp at h
      subst h
      simp [splitLf]
    | cons d ds =>
      rw [List.getLast?_cons_cons] at h
      have ihh := ih (Or.inr h) e
      rw [List.cons_append, splitLf, splitLf]
      by_cases hc : c = '\n'
      · rw [if_pos hc, if_pos hc, ihh]
        have h2 := splitLf_two_of_last_nl h
        cases hs : splitLf (d :: ds) with
        | nil => exact absurd hs (splitLf_ne_nil _)
        | cons a as =>
          rw [hs] at h2
          cases as with
          | nil => simp at h2
          | cons b bs => simp
      · rw [if_neg hc, if_neg hc, ihh]
        have h2 := splitLf_two_of_last_nl h
        cases hs : splitLf (d :: ds) with
        | nil => exact absurd hs (splitLf_ne_nil _)
        | cons a as =>
          rw [hs] at h2
          cases as with
          | nil => simp at h2
          | cons b bs => simp

theorem splitLf_line : ∀ {body : List Char}, '\n' ∉ body →
    splitLf (body ++ ['\n']) = [body, []] := by
  intro body
  induction body with
  | nil => intro _; rfl
  | cons c t ih =>
    intro h
    have hc : c ≠ '\n' := fun hcc => h (hcc ▸ List.mem_cons_self c t)
    have ht : '\n' ∉ t := fun hm => h (List.mem_cons_of_mem c hm)
    rw [List.cons_append, splitLf, if_neg hc, ih ht]

/-- A non-carriage-return head passes through the newline translation. -/
theorem normNl_cons_ne_cr {c : Char} (hc : c ≠ '\r') (l : List Char) :
    normNl (c :: l) = c :: normNl l := by
  cases l with
  | nil => simp [normNl, hc]
  | cons b rest => simp [normNl, hc]

/-- A carriage-return/line-feed pair translates to a single line feed. -/
theorem normNl_cr_lf (l : List Char) : normNl ('\r' :: '\n' :: l) = '\n' :: normNl l := by
  simp [normNl]

/-- A lone carriage return (not followed by a line feed) translates to a
line feed. -/
theorem normNl_cr {b : Char} (hb : b ≠ '\n') (l : List Char) :
    normNl ('\r' :: b :: l) = '\n' :: normNl (b :: l) := by
  simp [normNl, hb]

/-- Newline translation distributes over appending to a file that is empty
or ends in a line feed (no carriage-return pairing across the boundary). -/
theorem normNl_append : ∀ (old : List Char), (old = [] ∨ old.getLast? = some '\n') →
    ∀ e, normNl (old ++ e) = normNl old ++ normNl e := by
  intro old
  induction old with
  | nil => intro _ e; simp [normNl]
  | cons c rest ih =>
    intro h e
    rcases h with h | h
    · exact absurd h (by simp)
    cases rest with
    | nil =>
      simp at h
      subst h
      rw [List.cons_append, normNl_cons_ne_cr (by decide), normNl_cons_ne_cr (by decide)]
      simp [normNl]
    | cons d ds =>
      rw [List.getLast?_cons_cons] at h
      have ihh := ih (Or.inr h) e
      by_cases hc : c = '\r'
      · subst hc
        by_cases hd : d = '\n'
        · subst hd
          rw [List.cons_append, List.cons_append, normNl_cr_lf, normNl_cr_lf]
          rw [List.cons_append, normNl_cons_ne_cr (by decide),
            normNl_cons_ne_cr (by decide)] at ihh
          simpa using ihh
        · rw [List.cons_append, List.cons_append, normNl_cr hd, normNl_cr hd]
          rw [← List.cons_append d ds e, ihh]
          simp
      · rw [List.cons_append, normNl_cons_ne_cr hc, normNl_cons_ne_cr hc, ihh]
        simp

/-- Newline translation preserves ending in a line feed. -/
theorem normNl_last_nl : ∀ {old : List Char}, old.getLast? = some '\n' →
    (normNl old).getLast? = some '\n' := by
  intro old
  induction old with
  | nil => intro h; simp at h
  | cons c rest ih =>
    intro h
    cases rest with
    | nil =>
      simp at h
      subst h
      simp [normNl]
    | cons d ds =>
      rw [List.getLast?_cons_cons] at h
      have ihh := ih h
      by_cases hc : c = '\r'
      · subst hc
        by_cases hd : d = '\n'
        · subst hd
          rw [normNl_cr_lf]
          rw [normNl_cons_ne_cr (by decide)] at ihh
          exact ihh
        · rw [normNl_cr hd]
          cases hnn : normNl (d :: ds) with
          | nil => rw [hnn] at ihh; simp at ihh
          | cons a as =>
            rw [hnn] at ihh
            rw [List.getLast?_cons_cons]
            exact ihh
      · rw [normNl_cons_ne_cr hc]
        cases hnn : normNl (d :: ds) with
        | nil => rw [hnn] at ihh; simp at ihh
        | cons a as =>
          rw [hnn] at ihh
          rw [List.getLast?_cons_cons]
          exact ihh

/-- Newline translation is the identity on carriage-return-free text. -/
theorem normNl_id_no_cr : ∀ {l : List Char}, '\r' ∉ l → normNl l = l := by
  intro l
  induction l with
  | nil => intro _; rfl
  | cons c rest ih =>
    intro h
    have hc : c ≠ '\r' := fun hcc => h (hcc ▸ List.mem_cons_self c rest)
    have hr : '\r' ∉ rest := fun hm => h (List.mem_cons_of_mem c hm)
    rw [normNl_cons_ne_cr hc, ih hr]

/-- Line splitting distributes over appending to a file that is empty or
ends in a line feed. -/
theorem splitNl_append (old : List Char) (hold : old = [] ∨ old.getLast? = some '\n') :
    ∀ e, splitNl (old ++ e) = (splitNl old).dropLast ++ splitNl e := by
  intro e
  unfold splitNl
  rw [normNl_append old hold e]
  apply splitLf_append
  rcases hold with h | h
  · left
    simp [h, normNl]
  · right
    exact normNl_last_nl h

/-- A line-feed-terminated body free of line feeds and carriage returns
splits into exactly that line (plus the trailing empty segment). -/
theorem splitNl_line {body : List Char} (hn : '\n' ∉ body) (hr : '\r' ∉ body) :
    splitNl (body ++ ['\n']) = [body, []] := by
  unfold splitNl
  have hrr : '\r' ∉ body ++ ['\n'] := by
    intro hm
    rcases List.mem_append.mp hm with h | h
    · exact hr h
    · simp at h
  rw [normNl_id_no_cr hrr]
  exact splitLf_line hn

theorem parseLine_entry (a : Char) (ts title x : List Char)
    (hsp : isPySpace a = false) (hhash : a ≠ '#')
    (htspar : '(' ∉ (a :: ts)) (htitlepar : '(' ∉ title)
    (hx : x ≠ []) (hxp : ')' ∉ x) :
    parseLine ((a :: ts) ++ [' ', '-', ' '] ++ title ++ [' ', '('] ++ x ++ [')']) = some x := by
  have hshape : (a :: ts) ++ [' ', '-', ' '] ++ title ++ [' ', '('] ++ x ++ [')']
      = (a :: (ts ++ [' ', '-', ' '] ++ title ++ [' '])) ++ ('(' :: (x ++ [')'])) := by
    simp
  rw [hshape]
  have hlast : ((a :: (ts ++ [' ', '-', ' '] ++ title ++ [' '])) ++
      ('(' :: (x ++ [')']))).getLast? = some ')' := by
    rw [show (a :: (ts ++ [' ', '-', ' '] ++ title ++ [' '])) ++ ('(' :: (x ++ [')']))
        = ((a :: (ts ++ [' ', '-', ' '] ++ title ++ [' '])) ++ ('(' :: x)) ++ [')'] by simp]
    exact List.getLast?_concat _
  have hstrip : stripChars ((a :: (ts ++ [' ', '-', ' '] ++ title ++ [' '])) ++
      ('(' :: (x ++ [')']))) = (a :: (ts ++ [' ', '-', ' '] ++ title ++ [' '])) ++
      ('(' :: (x ++ [')'])) := by
    apply stripChars_id
    · intro c hc
      rw [List.cons_append, List.head?_cons] at hc
      cases hc
      exact hsp
    · intro c hc
      rw [hlast] at hc
      cases hc
      decide
  have hpre_par : '(' ∉ (a :: (ts ++ [' ', '-', ' '] ++ title ++ [' '])) := by
    intro hmem
    rcases List.mem_cons.mp hmem with h | hmem2
    · exact htspar (List.mem_cons.mpr (Or.inl h))
    rcases List.mem_append.mp hmem2 with h2 | h2
    swap
    · simp at h2
    rcases List.mem_append.mp h2 with h3 | h3
    swap
    · exact htitlepar h3
    rcases List.mem_append.mp h3 with h4 | h4
    · exact htspar (List.mem_cons.mpr (Or.inr h4))
    · simp at h4
  simp only [parseLine]
  rw [hstrip, List.cons_append]
  dsimp only
  rw [if_neg hhash, ← List.cons_append]
  exact searchParen_found _ hpre_par hx hxp

/-- C3 counterexample: with title `Intro (part 1` (containing an unmatched
opening parenthesis), the identifier `doc123` is reported exported in memory
right after `mark_exported`, but a fresh `ExportTracker` over the same ledger
file no longer reports it: the load-time regex captures `part 1 (doc123`
instead of `doc123`. -/
theorem c3_counterexample :
    is_exported (freshTracker []) ("doc123").data = false ∧
    is_exported (mark_exported (freshTracker []) ("2024-01-01T00:00:00").data
      ("doc123").data ("Intro (part 1").data) ("doc123").data = true ∧
    is_exported (freshTracker (mark_exported (freshTracker [])
      ("2024-01-01T00:00:00").data ("doc123").data ("Intro (part 1").data).file)
      ("doc123").data = false := by
  refine ⟨by decide, by decide, by decide⟩

/-- C3 as amended: for every not-yet-exported identifier that is nonempty and
free of closing parentheses, newlines and carriage returns, and every title
and timestamp free of opening parentheses, newlines and carriage returns
(the timestamp also neither empty, nor starting with whitespace or the
comment marker), `is_exported` is false before `mark_exported` and true
after it, and remains true after a fresh `ExportTracker` re-parses the same
ledger file (the re-read uses Python text-mode universal newlines, so a lone
carriage return also terminates a line). -/
theorem c3_amended (old ts title x : List Char)
    (hold : old = [] ∨ old.getLast? = some '\n')
    (hx : x ≠ []) (hxp : ')' ∉ x) (hxn : '\n' ∉ x) (hxr : '\r' ∉ x)
    (hts : ts ≠ []) (hsp : isPySpace ts.headI = false) (hhash : ts.headI ≠ '#')
    (htspar : '(' ∉ ts) (htsn : '\n' ∉ ts) (htsr : '\r' ∉ ts)
    (htitlepar : '(' ∉ title) (htitlen : '\n' ∉ title) (htitler : '\r' ∉ title)
    (hnew : is_exported (freshTracker old) x = false) :
    is_exported (freshTracker old) x = false ∧
    is_exported (mark_exported (freshTracker old) ts x title) x = true ∧
    is_exported (freshTracker (mark_exported (freshTracker old) ts x title).file) x = true := by
  obtain ⟨a, ts', rfl⟩ : ∃ a ts', ts = a :: ts' := by
    cases ts with
    | nil => exact absurd rfl hts
    | cons a t => exact ⟨a, t, rfl⟩
  refine ⟨hnew, ?_, ?_⟩
  · simp [is_exported, mark_exported, freshTracker]
  · simp only [mark_exported, freshTracker, is_exported]
    have hbn : '\n' ∉ ((a :: ts') ++ [' ', '-', ' '] ++ title ++ [' ', '('] ++ x ++ [')']) := by
      intro hm
      rcases List.mem_append.mp hm with h | h
      swap
      · simp at h
      rcases List.mem_append.mp h with h | h
      swap
      · exact hxn h
      rcases List.mem_append.mp h with h | h
      swap
      · simp at h
      rcases List.mem_append.mp h with h | h
      swap
      · exact htitlen h
      rcases List.mem_append.mp h with h | h
      · exact htsn h
      · simp at h
    have hbr : '\r' ∉ ((a :: ts') ++ [' ', '-', ' '] ++ title ++ [' ', '('] ++ x ++ [')']) := by
      intro hm
      rcases List.mem_append.mp hm with h | h
      swap
      · simp at h
      rcases List.mem_append.mp h with h | h
      swap
      · exact hxr h
      rcases List.mem_append.mp h with h | h
      swap
      · simp at h
      rcases List.mem_append.mp h with h | h
      swap
      · exact htitler h
      rcases List.mem_append.mp h with h | h
      · exact htsr h
      · simp at h
    have hentry : entryLine (a :: ts') title x
        = ((a :: ts') ++ [' ', '-', ' '] ++ title ++ [' ', '('] ++ x ++ [')']) ++ ['\n'] := by
      simp [entryLine]
    have hpl := parseLine_entry a ts' title x hsp hhash htspar htitlepar hx hxp
    have hnil : parseLine ([] : List Char) = none := rfl
    unfold load_exported_docs
    rw [hentry, splitNl_append old hold, splitNl_line hbn hbr, List.filterMap_append]
    simp at hpl
    simp [List.filterMap_cons, hpl, hnil]

/-- C3 witness: the amended round trip at concrete inputs. -/
theorem c3_witness :
    is_exported (freshTracker []) ("doc1").data = false ∧
    is_exported (mark_exported (freshTracker []) ("2024-01-01T00:00:00").data
      ("doc1").data ("Nice Title").data) ("doc1").data = true ∧
    is_exported (freshTracker (mark_exported (freshTracker [])
      ("2024-01-01T00:00:00").data ("doc1").data ("Nice Title").data).file)
      ("doc1").data = true :=
  c3_amended [] _ _ _ (Or.inl rfl) (by decide) (by decide) (by decide) (by decide)
    (by decide) (by decide) (by decide) (by decide) (by decide) (by decide) (by decide)
    (by decide) (by decide) (by decide)

/-- C9: loading the example ledger (one valid line, one comment line, one
garbage line) yields `doc123` exported and `doc999` not exported; in general
a line whose stripped form starts with the comment marker parses to nothing,
and a line whose stripped form does not end in a closing parenthesis parses
to nothing. -/
theorem c9 :
    is_exported (freshTracker
      ("2024-01-01T00:00:00 - Some Title (doc123)\n# comment\ngarbage line\n").data)
      ("doc123").data = true ∧
    is_exported (freshTracker
      ("2024-01-01T00:00:00 - Some Title (doc123)\n# comment\ngarbage line\n").data)
      ("doc999").data = false ∧
    (∀ line c cs, stripChars line = c :: cs → c = '#' → parseLine line = none) ∧
    (∀ line, (stripChars line).getLast? ≠ some ')' → parseLine line = none) := by
  refine ⟨by decide, by decide, ?_, ?_⟩
  · intro line c cs hs hc
    unfold parseLine
    rw [hs]
    dsimp only
    rw [if_pos hc]
  · intro line h
    unfold parseLine
    cases hs : stripChars line with
    | nil => rfl
    | cons c cs =>
      rw [hs] at h
      dsimp only
      by_cases hc : c = '#'
      · rw [if_pos hc]
      · rw [if_neg hc]
        exact searchParen_none h

/-- C9 witness: the general skip rules at concrete lines. -/
theorem c9_witness :
    parseLine ("# comment").data = none ∧ parseLine ("garbage line").data = none :=
  ⟨c9.2.2.1 ("# comment").data '#' (" comment").data (by decide) rfl,
   c9.2.2.2 ("garbage line").data (by decide)⟩

/-- One `_rate_limit` call moves `last_request_time` forward by at least the
configured minimum interval. -/
theorem rate_limit_step_spacing {m last last' : ℚ} (h : RateLimitStep m last last') :
    last + m ≤ last' := by
  obtain ⟨t1, t2, h1, h2, rfl⟩ := h
  unfold rate_limit_sleep at h2
  by_cases hlt : t1 - last < m
  · rw [if_pos hlt] at h2
    linarith
  · rw [if_neg hlt] at h2
    push_neg at hlt
    linarith

/-- C2: for every sequence of attempt start times produced by chaining
`_rate_limit` executions on one paced client instance, consecutive start
times are at least `min_interval` apart — 3.1 seconds for `ReadwiseAPI`,
1.0 second for `RateLimitedImageFetcher`; `last_request_time` is the value
recorded by each `_rate_limit` call immediately before the request fires,
failed attempts included. -/
theorem c2 :
    (∀ l : List ℚ, List.Chain' (RateLimitStep apiMinInterval) l →
      ∀ (i : ℕ) (h : i + 1 < l.length),
        l.get ⟨i, Nat.lt_of_succ_lt h⟩ + apiMinInterval ≤ l.get ⟨i + 1, h⟩) ∧
    (∀ l : List ℚ, List.Chain' (RateLimitStep imageMinInterval) l →
      ∀ (i : ℕ) (h : i + 1 < l.length),
        l.get ⟨i, Nat.lt_of_succ_lt h⟩ + imageMinInterval ≤ l.get ⟨i + 1, h⟩) := by
  constructor <;>
  · intro l hc i h
    exact rate_limit_step_spacing (List.chain'_iff_get.mp hc i (by omega))

/-- C2 witness: a concrete two-attempt trace. -/
theorem c2_witness :
    ([0, 31/10] : List ℚ).get ⟨0, by norm_num⟩ + apiMinInterval
      ≤ ([0, 31/10] : List ℚ).get ⟨1, by norm_num⟩ :=
  c2.1 [0, 31/10]
    (List.chain'_cons.mpr
      ⟨⟨0, 31/10, le_refl 0, by norm_num [rate_limit_sleep, apiMinInterval], rfl⟩,
       List.chain'_singleton _⟩)
    0 (by norm_num)

/-- C4: `_process_document` calls `mark_exported` only when an upload was
attempted and returned success; whenever the upload fails (or processing
aborts earlier), the document is not marked. -/
theorem c4 (doc : Doc) (env : Env) :
    ((process_document doc env).marked = true →
      env.uploadOk = true ∧ (process_document doc env).uploadAttempted = true) ∧
    (env.uploadOk = false → (process_document doc env).marked = false) := by
  unfold process_document
  split_ifs <;> simp_all

/-- C4 witness: a successful article upload at concrete inputs. -/
theorem c4_witness :
    RW.Env.uploadOk ⟨true, true, true⟩ = true ∧
    (process_document ⟨"id1", "T", none, none, none, some "<p>x</p>", Tags.seq []⟩
      ⟨true, true, true⟩).uploadAttempted = true :=
  (c4 ⟨"id1", "T", none, none, none, some "<p>x</p>", Tags.seq []⟩ ⟨true, true, true⟩).1
    (by decide)

/-- Against a transport that never returns a 2xx, the image retry loop never
produces a content result. -/
theorem fetch_image_loop_no_content (t : Nat → Resp) (hfail : ∀ k c, t k ≠ Resp.ok c) :
    ∀ fuel attempt a c, (fetch_image_loop t attempt fuel).2 ≠ ImageFinal.content a c := by
  intro fuel
  induction fuel with
  | zero => intro attempt a c; simp [fetch_image_loop]
  | succ n ih =>
    intro attempt a c
    cases ht : t attempt with
    | ok cc => exact absurd ht (hfail attempt cc)
    | rateLimited ra => simpa [fetch_image_loop, ht] using ih (attempt+1) a c
    | forbidden => simp [fetch_image_loop, ht]
    | httpError =>
      by_cases hatt : attempt = imageMaxRetries - 1
      · subst hatt
        simp [fetch_image_loop, ht]
      · simpa [fetch_image_loop, ht, hatt] using ih (attempt+1) a c
    | netError =>
      by_cases hatt : attempt = imageMaxRetries - 1
      · subst hatt
        simp [fetch_image_loop, ht]
      · simpa [fetch_image_loop, ht, hatt] using ih (attempt+1) a c

/-- C5: `fetch_image` returns `None` (and never propagates an exception) for
every transport whose attempts all fail — 403, 429, or transport errors in
any mix; the conversion loop preserves the number of `img` elements and
leaves an element's original remote `src` unchanged whenever its fetch
returns `None`, still producing the output list. -/
theorem c5 :
    (∀ t, (∀ k c, t k ≠ Resp.ok c) → fetch_image_result t = none) ∧
    (∀ fetch counter srcs,
      (process_images fetch counter srcs).1.length = srcs.length) ∧
    (∀ (fetch : String → Option (List Nat)) (counter : Nat) (srcs : List (Option String))
      (i : Nat) (s : String), srcs[i]? = some (some s) → isHttpUrl s = true →
      fetch s = none → (process_images fetch counter srcs).1[i]? = some (some s)) := by
  refine ⟨?_, ?_, ?_⟩
  · intro t h
    unfold fetch_image_result
    cases hf : (fetch_image t).2 with
    | content a c => exact absurd hf (fetch_image_loop_no_content t h imageMaxRetries 0 a c)
    | forbiddenNone a => rfl
    | exhaustedNone a => rfl
    | fellThroughNone => rfl
  · intro fetch counter srcs
    induction srcs generalizing counter with
    | nil => rfl
    | cons src rest ih =>
      cases src with
      | none => simpa [process_images] using ih counter
      | some s =>
        cases hh : isHttpUrl s with
        | false => simpa [process_images, hh] using ih counter
        | true =>
          cases hf : fetch s with
          | none => simpa [process_images, hh, hf] using ih counter
          | some content =>
            by_cases hc : content = []
            · simpa [process_images, hh, hf, hc] using ih counter
            · simpa [process_images, hh, hf, hc] using ih (counter+1)
  · intro fetch counter srcs
    induction srcs generalizing counter with
    | nil => intro i s h; simp at h
    | cons src rest ih =>
      intro i s hsome hhttp hnone
      cases i with
      | zero =>
        simp at hsome
        subst hsome
        simp [process_images, hhttp, hnone]
      | succ j =>
        simp at hsome
        cases src with
        | none => simpa [process_images] using ih counter j s hsome hhttp hnone
        | some s2 =>
          cases hh2 : isHttpUrl s2 with
          | false => simpa [process_images, hh2] using ih counter j s hsome hhttp hnone
          | true =>
            cases hf2 : fetch s2 with
            | none => simpa [process_images, hh2, hf2] using ih counter j s hsome hhttp hnone
            | some c2 =>
              by_cases hc2 : c2 = []
              · simpa [process_images, hh2, hf2, hc2] using ih counter j s hsome hhttp hnone
              · simpa [process_images, hh2, hf2, hc2] using ih (counter+1) j s hsome hhttp hnone

/-- C5 witness: concrete always-failing transport and a single unfetchable
image element. -/
theorem c5_witness :
    fetch_image_result (fun _ => Resp.netError) = none ∧
    (process_images (fun _ => none) 0 [some "http://a/b.png"]).1[0]?
      = some (some "http://a/b.png") :=
  ⟨c5.1 _ (fun k c => by simp),
   c5.2.2 _ 0 _ 0 _ rfl (by decide) rfl⟩

/-- C7: against a transport always failing with a retryable error, the API
client makes exactly 5 attempts and re-raises while the image fetcher
makes exactly 3 attempts and returns `None`; against a transport failing
`max_retries - 1` times then succeeding, each returns the success with
exactly `max_retries` attempts. -/
theorem c7 :
    (∀ t, (∀ k, t k = Resp.httpError ∨ t k = Resp.netError) →
      countAttempts (make_request t).1 = 5 ∧
      (make_request t).2 = ApiFinal.raisedRequestError 4) ∧
    (∀ t c, (∀ k, k < 4 → (t k = Resp.httpError ∨ t k = Resp.netError)) →
      t 4 = Resp.ok c →
      countAttempts (make_request t).1 = 5 ∧ (make_request t).2 = ApiFinal.success 4 c) ∧
    (∀ t, (∀ k, t k = Resp.httpError ∨ t k = Resp.netError) →
      countAttempts (fetch_image t).1 = 3 ∧
      (fetch_image t).2 = ImageFinal.exhaustedNone 2 ∧ fetch_image_result t = none) ∧
    (∀ t c, (∀ k, k < 2 → (t k = Resp.httpError ∨ t k = Resp.netError)) →
      t 2 = Resp.ok c →
      countAttempts (fetch_image t).1 = 3 ∧ fetch_image_result t = some c) := by
  refine ⟨?_, ?_, ?_, ?_⟩
  · intro t h
    rcases h 0 with h0 | h0 <;> rcases h 1 with h1 | h1 <;> rcases h 2 with h2 | h2 <;>
      rcases h 3 with h3 | h3 <;> rcases h 4 with h4 | h4 <;>
      simp [make_request, make_request_loop, h0, h1, h2, h3, h4, countAttempts,
        apiMaxRetries, apiBaseDelay]
  · intro t c h h4
    rcases h 0 (by omega) with h0 | h0 <;> rcases h 1 (by omega) with h1 | h1 <;>
      rcases h 2 (by omega) with h2 | h2 <;> rcases h 3 (by omega) with h3 | h3 <;>
      simp [make_request, make_request_loop, h0, h1, h2, h3, h4, countAttempts,
        apiMaxRetries, apiBaseDelay]
  · intro t h
    rcases h 0 with h0 | h0 <;> rcases h 1 with h1 | h1 <;> rcases h 2 with h2 | h2 <;>
      simp [fetch_image, fetch_image_loop, fetch_image_result, h0, h1, h2, countAttempts,
        imageMaxRetries, imageBaseDelay]
  · intro t c h h2
    rcases h 0 (by omega) with h0 | h0 <;> rcases h 1 (by omega) with h1 | h1 <;>
      simp [fetch_image, fetch_image_loop, fetch_image_result, h0, h1, h2, countAttempts,
        imageMaxRetries, imageBaseDelay]

/-- C7 witness: the always-failing transport at a concrete instance. -/
theorem c7_witness :
    countAttempts (make_request (fun _ => Resp.netError)).1 = 5 ∧
    (make_request (fun _ => Resp.netError)).2 = ApiFinal.raisedRequestError 4 :=
  c7.1 _ (fun _ => Or.inr rfl)

/-- C1 counterexample: a run consisting entirely of 429 responses terminates
after exactly `max_retries = 5` attempts with the max-retries exception
(it is not retried beyond the cap), and a 429 on the first attempt leaves
only 4 attempts for subsequent transport errors — the total attempt count
with one 429 plus persistent errors is still 5, so 429 handling does
consume retry-budget slots. -/
theorem c1_counterexample :
    (make_request (fun _ => Resp.rateLimited none)).2 = ApiFinal.raisedMaxRetries ∧
    countAttempts (make_request (fun _ => Resp.rateLimited none)).1 = 5 ∧
    countAttempts (make_request (fun k => if k = 0 then Resp.rateLimited none
      else Resp.netError)).1 = 5 ∧
    (make_request (fun k => if k = 0 then Resp.rateLimited none
      else Resp.netError)).2 = ApiFinal.raisedRequestError 4 := by
  refine ⟨by decide, by decide, by decide, by decide⟩

/-- C1 as amended: on a 429 the client sleeps the server-supplied Retry-After
when present, otherwise `base_delay * 2 ** attempt`, and then retries, with
the 429 consuming an attempt slot from the same budget as other failures: a
run consisting entirely of 429 responses performs exactly `max_retries`
attempts, each followed by its 429 sleep, and then surfaces exhaustion (the
API client raises, the image fetcher returns `None`). -/
theorem c1_amended : ∀ h : Nat → Option Nat,
    make_request (fun k => Resp.rateLimited (h k)) =
      ((List.range 5).flatMap
        (fun i => [Ev.attempt i, Ev.sleep429 ((h i).getD (2 * 2 ^ i))]),
       ApiFinal.raisedMaxRetries) ∧
    fetch_image (fun k => Resp.rateLimited (h k)) =
      ((List.range 3).flatMap
        (fun i => [Ev.attempt i, Ev.sleep429 ((h i).getD (2 * 2 ^ i))]),
       ImageFinal.fellThroughNone) ∧
    fetch_image_result (fun k => Resp.rateLimited (h k)) = none := by
  intro h
  refine ⟨?_, ?_, ?_⟩ <;> rfl

/-- Every document kept by the per-location pagination loop matches the tag. -/
theorem get_documents_loc_all (fetch : Option String → Page) (tag : String) :
    ∀ fuel cursor, (get_documents_loc fetch tag fuel cursor).all (docMatchesTag tag) = true := by
  intro fuel
  induction fuel with
  | zero => intro cursor; rfl
  | succ n ih =>
    intro cursor
    rw [get_documents_loc]
    cases ht : truthyCursor (fetch cursor).nextPageCursor with
    | none =>
      simp only [ht]
      rw [List.all_eq_true]
      intro x hx
      exact (List.mem_filter.mp hx).2
    | some c =>
      simp only [ht]
      rw [List.all_append, Bool.and_eq_true]
      refine ⟨?_, ih (some c)⟩
      rw [List.all_eq_true]
      intro x hx
      exact (List.mem_filter.mp hx).2

/-- C8: the two-page scenario returns exactly the 3 matching documents in
page order (mapping-shaped and sequence-shaped tags both match, any other
tags shape never matches), a second location repeating a document is
concatenated without deduplication, results are concatenated in
location-iteration order, and every returned document matches the tag. -/
theorem c8 :
    get_documents scenTransport ["new"] "remarkable" 10 = [scenDoc1, scenDoc2, scenDoc3] ∧
    get_documents scenTransport ["new", "later"] "remarkable" 10
      = [scenDoc1, scenDoc2, scenDoc3, scenDoc1] ∧
    (∀ (T : String → Option String → Page) (l : String) (ls : List String) (tag : String)
      (fuel : Nat), get_documents T (l :: ls) tag fuel
        = get_documents_loc (T l) tag fuel none ++ get_documents T ls tag fuel) ∧
    (∀ (T : String → Option String → Page) (locs : List String) (tag : String) (fuel : Nat),
      (get_documents T locs tag fuel).all (docMatchesTag tag) = true) := by
  refine ⟨by decide, by decide, ?_, ?_⟩
  · intro T l ls tag fuel
    simp [get_documents]
  · intro T locs tag fuel
    induction locs with
    | nil => rfl
    | cons l ls ih =>
      have h1 := get_documents_loc_all (T l) tag fuel none
      simp only [get_documents, List.flatMap_cons] at *
      rw [List.all_append, Bool.and_eq_true]
      exact ⟨h1, ih⟩

end RW
